import Mathlib

/-!
# Comment store (`models/Comment.js`)

A shallow embedding of the comment data-access module: the three tables it
queries (`comments`, `posts`, `users`), the SQL statements it issues, and the
five operations `getCommentsByPostId`, `createComment`, `deleteComment`,
`updateComment`, `getCommentById`.

Conventions of the embedding.

* A table is the list of its rows, in insertion order.
* A timestamp is a natural number; `CURRENT_TIMESTAMP` is the argument `now`
  of the operation that issues the statement.
* `uuidv4()` is the argument `uuid` of `createComment`.
* A transaction that rolls back returns the store it started from.
* The assignment `updated_at = updated_at` of the `UPDATE` statements keeps the
  value of the column.
* `comment_count` is a signed integer column.
* `async`/`await` is sequential composition: one operation runs at a time.
-/

namespace CommentStore

/-! ## Identifier codec -/

/-- A binary identifier: the bytes of a `Buffer`. -/
abbrev Buffer := List Nat

/-- Value of one hexadecimal digit, either case. -/
def hexVal (c : Char) : Option Nat :=
  if '0' ≤ c ∧ c ≤ '9' then some (c.toNat - '0'.toNat)
  else if 'a' ≤ c ∧ c ≤ 'f' then some (c.toNat - 'a'.toNat + 10)
  else if 'A' ≤ c ∧ c ≤ 'F' then some (c.toNat - 'A'.toNat + 10)
  else none

/-- The lower-case hexadecimal digit of a value below sixteen. -/
def hexDigit (n : Nat) : Char :=
  if n < 10 then Char.ofNat ('0'.toNat + n) else Char.ofNat ('a'.toNat + (n - 10))

/-- Bytes of a hexadecimal string, two digits a byte; decoding stops at the
first pair that is not two hexadecimal digits. -/
def hexDecode : List Char → Buffer
  | a :: b :: rest =>
    match hexVal a, hexVal b with
    | some x, some y => (16 * x + y) :: hexDecode rest
    | _, _ => []
  | _ => []

/-- Lower-case hexadecimal text of a byte sequence. -/
def hexEncode : Buffer → List Char
  | [] => []
  | n :: rest => hexDigit (n / 16 % 16) :: hexDigit (n % 16) :: hexEncode rest

/-- Modelled from the spec: `utils/uuidUtils.js` is not among the sources.
`encode(text) -> bytes16`: the hyphens are removed from the text and the
remaining hexadecimal digits are read two a byte. -/
def uuidToBuffer (uuid : String) : Buffer :=
  hexDecode (uuid.toList.filter (fun c => c != '-'))

/-- Modelled from the spec: `utils/uuidUtils.js` is not among the sources.
`decode(bytes16) -> text`: the bytes are written as lower-case hexadecimal
digits, grouped 8-4-4-4-12 with hyphens (the standard hyphenated form). -/
def bufferToUuid (b : Buffer) : String :=
  let hex := hexEncode b
  String.mk (hex.take 8 ++ '-' :: (hex.drop 8).take 4 ++ '-' :: (hex.drop 12).take 4
    ++ '-' :: (hex.drop 16).take 4 ++ '-' :: (hex.drop 20).take 12)

/-- A lower-case hexadecimal digit. -/
def isLowerHex (c : Char) : Bool :=
  ('0' ≤ c && c ≤ '9') || ('a' ≤ c && c ≤ 'f')

/-- Modelled from the spec: valid UUID text is the canonical textual form,
thirty-two lower-case hexadecimal digits in groups of 8, 4, 4, 4 and 12
separated by hyphens. -/
def isValidUuid (uuid : String) : Bool :=
  let cs := uuid.toList
  let g1 := cs.take 8
  let g2 := (cs.drop 9).take 4
  let g3 := (cs.drop 14).take 4
  let g4 := (cs.drop 19).take 4
  let g5 := cs.drop 24
  decide (cs = g1 ++ '-' :: g2 ++ '-' :: g3 ++ '-' :: g4 ++ '-' :: g5) &&
    decide (g1.length = 8) && decide (g2.length = 4) && decide (g3.length = 4) &&
    decide (g4.length = 4) && decide (g5.length = 12) &&
    (g1 ++ g2 ++ g3 ++ g4 ++ g5).all isLowerHex

/-! ## Tables -/

/-- A row of `comments`. -/
structure CommentRow where
  id : Buffer
  content : String
  user_id : Buffer
  post_id : Buffer
  created_at : Nat
  updated_at : Nat
  deleted_at : Option Nat
deriving DecidableEq, Repr

/-- A row of `posts`, restricted to the columns the module reads or writes. -/
structure PostRow where
  id : Buffer
  comment_count : Int
  updated_at : Nat
  deleted_at : Option Nat
deriving DecidableEq, Repr

/-- A row of `users`, restricted to the columns the module reads. -/
structure UserRow where
  id : Buffer
  nickname : String
deriving DecidableEq, Repr

/-- The database the pool connects to. -/
structure Db where
  comments : List CommentRow
  posts : List PostRow
  users : List UserRow
deriving DecidableEq, Repr

/-- A result row of `SELECT comments.*, users.nickname AS author`. -/
structure JoinedRow where
  row : CommentRow
  author : String
deriving DecidableEq, Repr

/-- The object handed to the caller: the joined row with its three
identifiers replaced by their text form. -/
structure Comment where
  id : String
  content : String
  user_id : String
  post_id : String
  created_at : Nat
  updated_at : Nat
  deleted_at : Option Nat
  author : String
deriving DecidableEq, Repr

/-- The object `{ id: comment_id }` returned by `deleteComment`. -/
structure Deleted where
  id : String
deriving DecidableEq, Repr

/-- What an operation throws. -/
inductive DbError where
  /-- The driver rejects an `INSERT` whose primary key is already present. -/
  | duplicateEntry
  /-- The driver rejects an `INSERT` whose foreign key has no parent row. -/
  | foreignKey
  /-- The error `new Error('새로 생성된 댓글을 찾을 수 없습니다.')`. -/
  | createdCommentNotFound
  /-- The error `new Error('수정된 댓글을 찾을 수 없습니다.')`. -/
  | updatedCommentNotFound
deriving DecidableEq, Repr

deriving instance DecidableEq for Except

/-! ## Statements -/

/-- The object `{...row, id: bufferToUuid(row.id), user_id: bufferToUuid(row.user_id),
post_id: bufferToUuid(row.post_id)}`. -/
def toComment (r : JoinedRow) : Comment :=
  { id := bufferToUuid r.row.id
    content := r.row.content
    user_id := bufferToUuid r.row.user_id
    post_id := bufferToUuid r.row.post_id
    created_at := r.row.created_at
    updated_at := r.row.updated_at
    deleted_at := r.row.deleted_at
    author := r.author }

/-- The join `FROM comments JOIN users ON comments.user_id = users.id` for one comment
row: one result row for every user row with that id. -/
def joinUsers (users : List UserRow) (c : CommentRow) : List JoinedRow :=
  (users.filter (fun u => decide (c.user_id = u.id))).map (fun u => ⟨c, u.nickname⟩)

/-- The statement `SELECT comments.*, users.nickname AS author FROM comments JOIN users ON
comments.user_id = users.id WHERE comments.id = ? AND comments.deleted_at IS NULL`. -/
def selectById (db : Db) (id : Buffer) : List JoinedRow :=
  (db.comments.filter (fun c => decide (c.id = id ∧ c.deleted_at = none))).flatMap
    (joinUsers db.users)

/-- Insertion of one row into a list already in `updated_at` order, before the
first row that is not older. -/
def orderedInsert (x : JoinedRow) : List JoinedRow → List JoinedRow
  | [] => [x]
  | y :: ys =>
    if x.row.updated_at ≤ y.row.updated_at then x :: y :: ys else y :: orderedInsert x ys

/-- The clause `ORDER BY comments.updated_at ASC`; rows with equal `updated_at` keep their
table order. -/
def orderByUpdatedAt : List JoinedRow → List JoinedRow
  | [] => []
  | x :: xs => orderedInsert x (orderByUpdatedAt xs)

/-- The statement `SELECT comments.*, users.nickname AS author FROM comments JOIN users ON
comments.user_id = users.id WHERE comments.post_id = ? AND comments.deleted_at
IS NULL ORDER BY comments.updated_at ASC`. -/
def selectByPostId (db : Db) (post_id : Buffer) : List JoinedRow :=
  orderByUpdatedAt
    ((db.comments.filter (fun c => decide (c.post_id = post_id ∧ c.deleted_at = none))).flatMap
      (joinUsers db.users))

/-- Modelled from the spec: the schema (the migrations) is not among the
sources. `comments(id BINARY(16) PK, content TEXT, user_id BINARY(16) FK,
post_id BINARY(16) FK, created_at, updated_at, deleted_at NULLABLE)`: an insert
is refused when the primary key is already present or when a foreign key has no
parent row; the columns the statement leaves out take their defaults, the
server's current time for `updated_at` and `NULL` for `deleted_at`.

The statement is `INSERT INTO comments (id, content, user_id, post_id,
created_at) VALUES (?, ?, ?, ?, CURRENT_TIMESTAMP)`. -/
def insertComment (db : Db) (id : Buffer) (content : String) (user_id post_id : Buffer)
    (now : Nat) : Except DbError Db :=
  if ∃ c ∈ db.comments, c.id = id then .error .duplicateEntry
  else if ¬ ∃ u ∈ db.users, u.id = user_id then .error .foreignKey
  else if ¬ ∃ p ∈ db.posts, p.id = post_id then .error .foreignKey
  else .ok { db with
    comments := db.comments ++
      [{ id := id, content := content, user_id := user_id, post_id := post_id,
         created_at := now, updated_at := now, deleted_at := none }] }

/-- The statement `UPDATE posts SET comment_count = comment_count + 1, updated_at = updated_at
WHERE id = ? AND deleted_at IS NULL`. -/
def incrementCommentCount (db : Db) (post_id : Buffer) : Db :=
  { db with
    posts := db.posts.map (fun p =>
      if p.id = post_id ∧ p.deleted_at = none then
        { p with comment_count := p.comment_count + 1, updated_at := p.updated_at }
      else p) }

/-- The statement `UPDATE posts SET comment_count = comment_count - 1, updated_at = updated_at
WHERE id = ? AND deleted_at IS NULL`. -/
def decrementCommentCount (db : Db) (post_id : Buffer) : Db :=
  { db with
    posts := db.posts.map (fun p =>
      if p.id = post_id ∧ p.deleted_at = none then
        { p with comment_count := p.comment_count - 1, updated_at := p.updated_at }
      else p) }

/-- The statement `UPDATE comments SET deleted_at = CURRENT_TIMESTAMP, updated_at = updated_at
WHERE id = ? AND deleted_at IS NULL`. -/
def softDeleteComment (db : Db) (id : Buffer) (now : Nat) : Db :=
  { db with
    comments := db.comments.map (fun c =>
      if c.id = id ∧ c.deleted_at = none then
        { c with deleted_at := some now, updated_at := c.updated_at }
      else c) }

/-- The statement `UPDATE comments SET content = ?, updated_at = updated_at WHERE id = ? AND
deleted_at IS NULL`. -/
def updateContent (db : Db) (content : String) (id : Buffer) : Db :=
  { db with
    comments := db.comments.map (fun c =>
      if c.id = id ∧ c.deleted_at = none then
        { c with content := content, updated_at := c.updated_at }
      else c) }

/-! ## Operations -/

/-- The operation `Comment.getCommentsByPostId(post_id)`. -/
def getCommentsByPostId (db : Db) (post_id : String) : List Comment :=
  let rows := selectByPostId db (uuidToBuffer post_id)
  rows.map toComment

/-- The operation `Comment.createComment({ content, user_id, post_id })`. The
pair is the store the call leaves behind and what the call returns or throws. A failing
`INSERT` is rolled back; the re-read happens after the commit, so a failing
re-read leaves the committed store. The local `created_at = formatDate()` is
not passed to any statement and has no counterpart here. -/
def createComment (db : Db) (content user_id post_id : String) (uuid : String) (now : Nat) :
    Db × Except DbError Comment :=
  let id := uuidToBuffer uuid
  let userIdBuffer := uuidToBuffer user_id
  let postIdBuffer := uuidToBuffer post_id
  match insertComment db id content userIdBuffer postIdBuffer now with
  | .error e => (db, .error e)
  | .ok db1 =>
    let db2 := incrementCommentCount db1 postIdBuffer
    match selectById db2 id with
    | [] => (db2, .error .createdCommentNotFound)
    | row :: _ => (db2, .ok (toComment row))

/-- The operation `Comment.deleteComment(comment_id, post_id)`. -/
def deleteComment (db : Db) (comment_id post_id : String) (now : Nat) :
    Db × Except DbError Deleted :=
  let commentIdBuffer := uuidToBuffer comment_id
  let postIdBuffer := uuidToBuffer post_id
  let db1 := softDeleteComment db commentIdBuffer now
  let db2 := decrementCommentCount db1 postIdBuffer
  (db2, .ok { id := comment_id })

/-- The operation `Comment.updateComment(comment_id, content)`. -/
def updateComment (db : Db) (comment_id content : String) : Db × Except DbError Comment :=
  let idBuffer := uuidToBuffer comment_id
  let db1 := updateContent db content idBuffer
  match selectById db1 idBuffer with
  | [] => (db1, .error .updatedCommentNotFound)
  | row :: _ => (db1, .ok (toComment row))

/-- The operation `Comment.getCommentById(comment_id)`; `none` is the `null` result. -/
def getCommentById (db : Db) (comment_id : String) : Option Comment :=
  let idBuffer := uuidToBuffer comment_id
  match selectById db idBuffer with
  | [] => none
  | comment :: _ => some (toComment comment)

/-! ## Runs -/

/-- One call of a mutating operation, with what the environment supplies to
it: the generated id and the server time. -/
inductive Op where
  | create (content user_id post_id uuid : String) (now : Nat)
  | delete (comment_id post_id : String) (now : Nat)
  | update (comment_id content : String)
deriving DecidableEq, Repr

/-- The store a call leaves behind. -/
def step (db : Db) : Op → Db
  | .create content user_id post_id uuid now =>
    (createComment db content user_id post_id uuid now).1
  | .delete comment_id post_id now => (deleteComment db comment_id post_id now).1
  | .update comment_id content => (updateComment db comment_id content).1

/-- Whether a call completes without throwing. -/
def completes (db : Db) : Op → Bool
  | .create content user_id post_id uuid now =>
    match (createComment db content user_id post_id uuid now).2 with
    | .ok _ => true
    | .error _ => false
  | .delete comment_id post_id now =>
    match (deleteComment db comment_id post_id now).2 with
    | .ok _ => true
    | .error _ => false
  | .update comment_id content =>
    match (updateComment db comment_id content).2 with
    | .ok _ => true
    | .error _ => false

/-! ## The counter invariant -/

/-- Number of rows of `comments` with the given `post_id` and `deleted_at`
null. -/
def liveCount (db : Db) (post_id : Buffer) : Nat :=
  (db.comments.filter (fun c => decide (c.post_id = post_id ∧ c.deleted_at = none))).length

/-- Every post's `comment_count` is the number of its live comments. -/
def CounterConsistent (db : Db) : Prop :=
  ∀ p ∈ db.posts, p.comment_count = (liveCount db p.id : Int)

instance (db : Db) : Decidable (CounterConsistent db) := by
  unfold CounterConsistent
  infer_instance

/-- Every post with `deleted_at` null has as `comment_count` the number of its
live comments. -/
def LiveCounterConsistent (db : Db) : Prop :=
  ∀ p ∈ db.posts, p.deleted_at = none → p.comment_count = (liveCount db p.id : Int)

instance (db : Db) : Decidable (LiveCounterConsistent db) := by
  unfold LiveCounterConsistent
  infer_instance

/-- A call is a create, or a delete that names a comment live in the store
together with that comment's own `post_id`. -/
def targeted (db : Db) : Op → Bool
  | .create _ _ _ _ _ => true
  | .delete comment_id post_id _ =>
    db.comments.any (fun c => decide (c.id = uuidToBuffer comment_id ∧ c.deleted_at = none ∧
      c.post_id = uuidToBuffer post_id))
  | .update _ _ => false

/-- Every call of the run completes without error and is `targeted` in the
store it meets. -/
def admissible : Db → List Op → Bool
  | _, [] => true
  | db, op :: ops => completes db op && targeted db op && admissible (step db op) ops

/-! ## A small store for concrete runs -/

/-- Text id of the post of the example store. -/
def postP : String := "00000000-0000-4000-8000-0000000000a1"

/-- Text id of a second post. -/
def postQ : String := "00000000-0000-4000-8000-0000000000a2"

/-- Text id of the user of the example store. -/
def userU : String := "00000000-0000-4000-8000-0000000000b1"

/-- Text id the generator hands out first. -/
def idC1 : String := "00000000-0000-4000-8000-0000000000c1"

/-- Text id the generator hands out second. -/
def idC2 : String := "00000000-0000-4000-8000-0000000000c2"

/-- One live post without comments, one user, no comment. -/
def store0 : Db :=
  { comments := []
    posts := [{ id := uuidToBuffer postP, comment_count := 0, updated_at := 0, deleted_at := none }]
    users := [{ id := uuidToBuffer userU, nickname := "leo" }] }

/-- The example store after `createComment` of C1 at time 1. -/
def store1 : Db := (createComment store0 "first" userU postP idC1 1).1

/-- The example store after `createComment` of C2 at time 2. -/
def store2 : Db := (createComment store1 "second" userU postP idC2 2).1

/-- The example store after `deleteComment` of C1 at time 3. -/
def store3 : Db := (deleteComment store2 idC1 postP 3).1

/-- Two live posts P and Q without comments and one user. -/
def storePQ0 : Db :=
  { comments := []
    posts := [{ id := uuidToBuffer postP, comment_count := 0, updated_at := 0, deleted_at := none },
              { id := uuidToBuffer postQ, comment_count := 0, updated_at := 0, deleted_at := none }]
    users := [{ id := uuidToBuffer userU, nickname := "leo" }] }

/-- The two-post store after C1 is created on P and C2 on Q: each post has
one live comment and `comment_count` 1. -/
def storePQ : Db :=
  (createComment (createComment storePQ0 "first" userU postP idC1 1).1
    "second" userU postQ idC2 2).1

/-- One soft-deleted post without comments and one user. -/
def storeD : Db :=
  { comments := []
    posts := [{ id := uuidToBuffer postP, comment_count := 0, updated_at := 0,
                deleted_at := some 0 }]
    users := [{ id := uuidToBuffer userU, nickname := "leo" }] }

/-! ## The codec round trip -/

theorem char_le_iff (a b : Char) : a ≤ b ↔ a.toNat ≤ b.toNat := by
  rw [Char.le_def]
  exact Iff.rfl

theorem char_eq_ofNat (c : Char) (n : Nat) (h : c.toNat = n) : c = Char.ofNat n := by
  rw [← h]
  exact (Char.ofNat_toNat c).symm

/-- A lower-case hexadecimal digit has a value below sixteen, is printed back
as itself, and is not a hyphen. -/
theorem hexVal_lowerHex (c : Char) (h : isLowerHex c = true) :
    (hexVal c).getD 0 < 16 ∧ hexVal c = some ((hexVal c).getD 0) ∧
      hexDigit ((hexVal c).getD 0) = c ∧ c ≠ '-' := by
  simp only [isLowerHex, Bool.or_eq_true, Bool.and_eq_true, decide_eq_true_eq, char_le_iff] at h
  have h0 : ('0' : Char).toNat = 48 := by decide
  have h9 : ('9' : Char).toNat = 57 := by decide
  have ha : ('a' : Char).toNat = 97 := by decide
  have hf : ('f' : Char).toNat = 102 := by decide
  rw [h0, h9, ha, hf] at h
  obtain ⟨n, hn⟩ : ∃ n, c.toNat = n := ⟨_, rfl⟩
  rw [hn] at h
  have hc := char_eq_ofNat c n hn
  subst hc
  rcases h with ⟨h1, h2⟩ | ⟨h1, h2⟩
  · interval_cases n <;> decide
  · interval_cases n <;> decide

theorem hexDecode_lowerHex (n : Nat) :
    ∀ l : List Char, l.length = 2 * n → (∀ c ∈ l, isLowerHex c = true) →
      hexEncode (hexDecode l) = l ∧ (hexDecode l).length = n := by
  induction n with
  | zero =>
    intro l hl _
    have : l = [] := List.length_eq_zero.mp (by omega)
    subst this
    exact ⟨rfl, rfl⟩
  | succ n ih =>
    intro l hl hall
    match l, hl, hall with
    | a :: b :: rest, hl, hall =>
      have hlen : rest.length = 2 * n := by simp at hl; omega
      obtain ⟨ha1, ha2, ha3, _⟩ := hexVal_lowerHex a (hall a (by simp))
      obtain ⟨hb1, hb2, hb3, _⟩ := hexVal_lowerHex b (hall b (by simp))
      obtain ⟨ih1, ih2⟩ := ih rest hlen (fun c hc => hall c (by simp [hc]))
      generalize (hexVal a).getD 0 = x at ha1 ha2 ha3
      generalize (hexVal b).getD 0 = y at hb1 hb2 hb3
      have e1 : (16 * x + y) / 16 % 16 = x := by omega
      have e2 : (16 * x + y) % 16 = y := by omega
      simp only [hexDecode, ha2, hb2, hexEncode, e1, e2, ha3, hb3, ih1, List.length_cons, ih2]
      exact ⟨trivial, trivial⟩
    | [_], hl, _ => simp at hl; omega
    | [], hl, _ => simp at hl

theorem filter_hyphen_lowerHex (l : List Char) (h : ∀ c ∈ l, isLowerHex c = true) :
    l.filter (fun c => c != '-') = l := by
  apply List.filter_eq_self.mpr
  intro c hc
  have := (hexVal_lowerHex c (h c hc)).2.2.2
  simpa using this

/-- The round trip of the codec on canonical UUID text, with the width of the
binary form. -/
theorem bufferToUuid_uuidToBuffer (x : String) (hx : isValidUuid x = true) :
    bufferToUuid (uuidToBuffer x) = x ∧ (uuidToBuffer x).length = 16 := by
  obtain ⟨g1, g2, g3, g4, g5, hx, h1, h2, h3, h4, h5, hall⟩ :
      ∃ g1 g2 g3 g4 g5 : List Char,
        x.toList = g1 ++ '-' :: g2 ++ '-' :: g3 ++ '-' :: g4 ++ '-' :: g5 ∧
        g1.length = 8 ∧ g2.length = 4 ∧ g3.length = 4 ∧ g4.length = 4 ∧ g5.length = 12 ∧
        (∀ c ∈ g1 ++ g2 ++ g3 ++ g4 ++ g5, isLowerHex c = true) := by
    simp only [isValidUuid, Bool.and_eq_true, decide_eq_true_eq, List.all_eq_true] at hx
    obtain ⟨⟨⟨⟨⟨⟨e, h1⟩, h2⟩, h3⟩, h4⟩, h5⟩, hall⟩ := hx
    exact ⟨_, _, _, _, _, e, h1, h2, h3, h4, h5, hall⟩
  have hf : x.toList.filter (fun c => c != '-') = g1 ++ g2 ++ g3 ++ g4 ++ g5 := by
    rw [hx]
    simp only [List.filter_append, List.filter_cons]
    rw [filter_hyphen_lowerHex g1 (fun c hc => hall c (by simp [hc])),
      filter_hyphen_lowerHex g2 (fun c hc => hall c (by simp [hc])),
      filter_hyphen_lowerHex g3 (fun c hc => hall c (by simp [hc])),
      filter_hyphen_lowerHex g4 (fun c hc => hall c (by simp [hc])),
      filter_hyphen_lowerHex g5 (fun c hc => hall c (by simp [hc]))]
    simp
  obtain ⟨e, elen⟩ := hexDecode_lowerHex 16 (g1 ++ g2 ++ g3 ++ g4 ++ g5)
    (by simp [h1, h2, h3, h4, h5]) hall
  refine ⟨?_, by rw [uuidToBuffer, hf]; exact elen⟩
  have t1 : (g1 ++ g2 ++ g3 ++ g4 ++ g5).take 8 = g1 := by
    rw [show g1 ++ g2 ++ g3 ++ g4 ++ g5 = g1 ++ (g2 ++ g3 ++ g4 ++ g5) by simp]
    exact List.take_left' h1
  have t2 : ((g1 ++ g2 ++ g3 ++ g4 ++ g5).drop 8).take 4 = g2 := by
    rw [show g1 ++ g2 ++ g3 ++ g4 ++ g5 = g1 ++ (g2 ++ (g3 ++ g4 ++ g5)) by simp,
      List.drop_left' h1]
    exact List.take_left' h2
  have t3 : ((g1 ++ g2 ++ g3 ++ g4 ++ g5).drop 12).take 4 = g3 := by
    rw [show g1 ++ g2 ++ g3 ++ g4 ++ g5 = (g1 ++ g2) ++ (g3 ++ (g4 ++ g5)) by simp,
      List.drop_left' (by simp [h1, h2])]
    exact List.take_left' h3
  have t4 : ((g1 ++ g2 ++ g3 ++ g4 ++ g5).drop 16).take 4 = g4 := by
    rw [show g1 ++ g2 ++ g3 ++ g4 ++ g5 = (g1 ++ g2 ++ g3) ++ (g4 ++ g5) by simp,
      List.drop_left' (by simp [h1, h2, h3])]
    exact List.take_left' h4
  have t5 : ((g1 ++ g2 ++ g3 ++ g4 ++ g5).drop 20).take 12 = g5 := by
    rw [show g1 ++ g2 ++ g3 ++ g4 ++ g5 = (g1 ++ g2 ++ g3 ++ g4) ++ (g5 ++ []) by simp,
      List.drop_left' (by simp [h1, h2, h3, h4]), List.take_left' h5]
  rw [bufferToUuid, uuidToBuffer, hf]
  simp only [e, t1, t2, t3, t4, t5]
  have : x = String.mk x.toList := rfl
  rw [this, hx]

/-! ## The two `SELECT` statements -/

theorem mem_joinUsers (users : List UserRow) (c : CommentRow) (r : JoinedRow) :
    r ∈ joinUsers users c ↔
      r.row = c ∧ ∃ u ∈ users, u.id = c.user_id ∧ r.author = u.nickname := by
  unfold joinUsers
  simp only [List.mem_map, List.mem_filter, decide_eq_true_eq]
  constructor
  · rintro ⟨u, ⟨hu, hid⟩, rfl⟩
    exact ⟨rfl, u, hu, hid.symm, rfl⟩
  · rintro ⟨hrow, u, hu, hid, hau⟩
    refine ⟨u, ⟨hu, hid.symm⟩, ?_⟩
    cases r
    simp_all

theorem mem_selectById (db : Db) (id : Buffer) (r : JoinedRow) :
    r ∈ selectById db id ↔
      r.row ∈ db.comments ∧ r.row.id = id ∧ r.row.deleted_at = none ∧
        ∃ u ∈ db.users, u.id = r.row.user_id ∧ r.author = u.nickname := by
  unfold selectById
  simp only [List.mem_flatMap, List.mem_filter, decide_eq_true_eq, mem_joinUsers]
  constructor
  · rintro ⟨c, ⟨hc, hid, hdel⟩, hrow, hu⟩
    subst hrow
    exact ⟨hc, hid, hdel, hu⟩
  · rintro ⟨hc, hid, hdel, hu⟩
    exact ⟨r.row, ⟨hc, hid, hdel⟩, rfl, hu⟩

theorem orderedInsert_perm (x : JoinedRow) (l : List JoinedRow) :
    (orderedInsert x l).Perm (x :: l) := by
  induction l with
  | nil => exact List.Perm.refl _
  | cons y ys ih =>
    unfold orderedInsert
    split
    · exact List.Perm.refl _
    · exact (List.Perm.cons y ih).trans (List.Perm.swap x y ys)

theorem orderByUpdatedAt_perm (l : List JoinedRow) : (orderByUpdatedAt l).Perm l := by
  induction l with
  | nil => exact List.Perm.refl _
  | cons x xs ih =>
    exact (orderedInsert_perm x (orderByUpdatedAt xs)).trans (List.Perm.cons x ih)

theorem orderedInsert_sorted (x : JoinedRow) (l : List JoinedRow)
    (h : l.Pairwise (fun a b => a.row.updated_at ≤ b.row.updated_at)) :
    (orderedInsert x l).Pairwise (fun a b => a.row.updated_at ≤ b.row.updated_at) := by
  induction l with
  | nil => simp [orderedInsert]
  | cons y ys ih =>
    unfold orderedInsert
    have hy := List.pairwise_cons.mp h
    split
    · rename_i hxy
      refine List.pairwise_cons.mpr ⟨?_, h⟩
      intro z hz
      rcases List.mem_cons.mp hz with rfl | hz
      · exact hxy
      · exact Nat.le_trans hxy (hy.1 z hz)
    · rename_i hxy
      refine List.pairwise_cons.mpr ⟨?_, ih hy.2⟩
      intro z hz
      rcases List.mem_cons.mp ((orderedInsert_perm x ys).mem_iff.mp hz) with rfl | hz
      · omega
      · exact hy.1 z hz

theorem orderByUpdatedAt_sorted (l : List JoinedRow) :
    (orderByUpdatedAt l).Pairwise (fun a b => a.row.updated_at ≤ b.row.updated_at) := by
  induction l with
  | nil => exact List.Pairwise.nil
  | cons x xs ih => exact orderedInsert_sorted x _ ih

theorem mem_selectByPostId (db : Db) (post_id : Buffer) (r : JoinedRow) :
    r ∈ selectByPostId db post_id ↔
      r.row ∈ db.comments ∧ r.row.post_id = post_id ∧ r.row.deleted_at = none ∧
        ∃ u ∈ db.users, u.id = r.row.user_id ∧ r.author = u.nickname := by
  unfold selectByPostId
  rw [(orderByUpdatedAt_perm _).mem_iff]
  simp only [List.mem_flatMap, List.mem_filter, decide_eq_true_eq, mem_joinUsers]
  constructor
  · rintro ⟨c, ⟨hc, hid, hdel⟩, hrow, hu⟩
    subst hrow
    exact ⟨hc, hid, hdel, hu⟩
  · rintro ⟨hc, hid, hdel, hu⟩
    exact ⟨r.row, ⟨hc, hid, hdel⟩, rfl, hu⟩

/-- With `users.id` a key, the join yields the comment row once when its
author exists and not at all otherwise. -/
theorem joinUsers_rows (users : List UserRow) (hu : (users.map (fun u => u.id)).Nodup)
    (c : CommentRow) :
    (joinUsers users c).map (fun r => r.row) =
      if ∃ u ∈ users, u.id = c.user_id then [c] else [] := by
  induction users with
  | nil => simp [joinUsers]
  | cons u us ih =>
    have hnd : (∀ x ∈ us, ¬ x.id = u.id) ∧ (us.map (fun u => u.id)).Nodup := by
      simpa using hu
    have ih := ih hnd.2
    unfold joinUsers at ih ⊢
    by_cases hcu : c.user_id = u.id
    · have hno : ¬ ∃ v ∈ us, v.id = c.user_id := by
        rintro ⟨v, hv, hvid⟩
        exact hnd.1 v hv (hvid.trans hcu)
      rw [if_neg hno] at ih
      have hyes : ∃ v ∈ u :: us, v.id = c.user_id := ⟨u, by simp, hcu.symm⟩
      rw [if_pos hyes]
      simp only [List.filter_cons, hcu, decide_True, if_true, List.map_cons]
      simp only [hcu] at ih
      rw [ih]
    · have hiff : (∃ v ∈ u :: us, v.id = c.user_id) ↔ ∃ v ∈ us, v.id = c.user_id := by
        constructor
        · rintro ⟨v, hv, hvid⟩
          rcases List.mem_cons.mp hv with rfl | hv
          · exact absurd hvid.symm hcu
          · exact ⟨v, hv, hvid⟩
        · rintro ⟨v, hv, hvid⟩
          exact ⟨v, by simp [hv], hvid⟩
      simp only [List.filter_cons, hcu, decide_False, Bool.false_eq_true, if_false]
      rw [ih]
      by_cases h : ∃ v ∈ us, v.id = c.user_id
      · rw [if_pos h, if_pos (hiff.mpr h)]
      · rw [if_neg h, if_neg (fun h' => h (hiff.mp h'))]

theorem flatMap_joinUsers_rows (users : List UserRow)
    (hu : (users.map (fun u => u.id)).Nodup) (cs : List CommentRow) :
    (cs.flatMap (joinUsers users)).map (fun r => r.row) =
      cs.filter (fun c => decide (∃ u ∈ users, u.id = c.user_id)) := by
  induction cs with
  | nil => rfl
  | cons c cs ih =>
    rw [List.flatMap_cons, List.map_append, ih, joinUsers_rows users hu c, List.filter_cons]
    by_cases h : ∃ u ∈ users, u.id = c.user_id
    · simp only [if_pos h, decide_eq_true h, if_true, List.singleton_append]
    · simp only [if_neg h, decide_eq_false h, Bool.false_eq_true, if_false, List.nil_append]

/-! ## Reads -/

/-- C8. For every store in which `users.id` is a key and every `post_id`,
`getCommentsByPostId` returns the decoded image of a list of joined rows whose
comment rows are, up to order and each as often as in the table, exactly the
rows of `comments` with that `post_id`, `deleted_at` null and an existing
author; each row carries the nickname of the user its `user_id` names; and the
returned list is in non-decreasing order of `updated_at`. -/
theorem getCommentsByPostId_contents_and_order (db : Db) (post_id : String)
    (hu : (db.users.map (fun u => u.id)).Nodup) :
    ∃ rows : List JoinedRow,
      getCommentsByPostId db post_id = rows.map toComment ∧
      (rows.map (fun r => r.row)).Perm
        (db.comments.filter (fun c => decide (c.post_id = uuidToBuffer post_id ∧
          c.deleted_at = none ∧ ∃ u ∈ db.users, u.id = c.user_id))) ∧
      (∀ r ∈ rows, ∃ u ∈ db.users, u.id = r.row.user_id ∧ r.author = u.nickname) ∧
      (getCommentsByPostId db post_id).Pairwise (fun a b => a.updated_at ≤ b.updated_at) := by
  refine ⟨selectByPostId db (uuidToBuffer post_id), rfl, ?_, ?_, ?_⟩
  · unfold selectByPostId
    refine ((orderByUpdatedAt_perm _).map _).trans ?_
    rw [flatMap_joinUsers_rows db.users hu, List.filter_filter]
    refine List.Perm.of_eq (List.filter_congr ?_)
    intro c _
    by_cases h1 : c.post_id = uuidToBuffer post_id <;> by_cases h2 : c.deleted_at = none <;>
      by_cases h3 : ∃ u ∈ db.users, u.id = c.user_id <;> simp [h1, h2, h3]
  · intro r hr
    exact ((mem_selectByPostId db _ r).mp hr).2.2.2
  · unfold getCommentsByPostId
    simp only
    rw [List.pairwise_map]
    exact orderByUpdatedAt_sorted _

/-- The list theorem at the example store after two creates. -/
theorem getCommentsByPostId_contents_and_order_witness :
    (store2.users.map (fun u => u.id)).Nodup ∧
    ∃ rows : List JoinedRow,
      getCommentsByPostId store2 postP = rows.map toComment ∧
      (rows.map (fun r => r.row)).Perm
        (store2.comments.filter (fun c => decide (c.post_id = uuidToBuffer postP ∧
          c.deleted_at = none ∧ ∃ u ∈ store2.users, u.id = c.user_id))) ∧
      (∀ r ∈ rows, ∃ u ∈ store2.users, u.id = r.row.user_id ∧ r.author = u.nickname) ∧
      (getCommentsByPostId store2 postP).Pairwise (fun a b => a.updated_at ≤ b.updated_at) :=
  ⟨by decide, getCommentsByPostId_contents_and_order store2 postP (by decide)⟩

theorem getCommentById_eq_some (db : Db) (id : String) (r : Comment)
    (h : getCommentById db id = some r) :
    ∃ j ∈ selectById db (uuidToBuffer id), r = toComment j := by
  unfold getCommentById at h
  simp only at h
  split at h
  · exact absurd h (by simp)
  · rename_i j js hsel
    refine ⟨j, by rw [hsel]; simp, ?_⟩
    exact (Option.some.inj h).symm

/-- C9. In every store, no comment returned by `getCommentsByPostId` or
`getCommentById` has a non-null `deleted_at`, and `getCommentById` returns
`null` for an id all of whose rows are soft-deleted, in particular for an id
without a row. In the example run (create C1, create C2, delete C1 on post P)
the list for P is C2 alone and `getCommentById` of C1 is `null`. -/
theorem soft_deleted_rows_invisible (db : Db) (id : String) :
    (∀ r ∈ getCommentsByPostId db id, r.deleted_at = none) ∧
    (∀ r, getCommentById db id = some r → r.deleted_at = none) ∧
    ((∀ c ∈ db.comments, c.id = uuidToBuffer id → c.deleted_at ≠ none) →
      getCommentById db id = none) ∧
    (getCommentsByPostId store3 postP =
        [{ id := idC2, content := "second", user_id := userU, post_id := postP,
           created_at := 2, updated_at := 2, deleted_at := none, author := "leo" }] ∧
      getCommentById store3 idC1 = none) := by
  refine ⟨?_, ?_, ?_, by decide⟩
  · intro r hr
    unfold getCommentsByPostId at hr
    obtain ⟨j, hj, rfl⟩ := List.mem_map.mp hr
    exact ((mem_selectByPostId db _ j).mp hj).2.2.1
  · intro r hr
    obtain ⟨j, hj, rfl⟩ := getCommentById_eq_some db id r hr
    exact ((mem_selectById db _ j).mp hj).2.2.1
  · intro hall
    unfold getCommentById
    simp only
    split
    · rfl
    · rename_i j js hsel
      have hj : j ∈ selectById db (uuidToBuffer id) := by rw [hsel]; simp
      have := (mem_selectById db _ j).mp hj
      exact absurd this.2.2.1 (hall j.row this.1 this.2.1)

/-- The invisibility theorem at the example store, for the deleted id C1. -/
theorem soft_deleted_rows_invisible_witness :
    (∀ c ∈ store3.comments, c.id = uuidToBuffer idC1 → c.deleted_at ≠ none) ∧
    getCommentById store3 idC1 = none :=
  ⟨by decide, (soft_deleted_rows_invisible store3 idC1).2.2.1 (by decide)⟩

/-! ## Writes -/

theorem insertComment_cases (db : Db) (id : Buffer) (content : String)
    (user_id post_id : Buffer) (now : Nat) :
    (∃ e, insertComment db id content user_id post_id now = .error e) ∨
    (insertComment db id content user_id post_id now =
        .ok { db with comments := db.comments ++
          [{ id := id, content := content, user_id := user_id, post_id := post_id,
             created_at := now, updated_at := now, deleted_at := none }] } ∧
      (¬ ∃ c ∈ db.comments, c.id = id) ∧ (∃ u ∈ db.users, u.id = user_id) ∧
      (∃ p ∈ db.posts, p.id = post_id)) := by
  unfold insertComment
  by_cases h1 : ∃ c ∈ db.comments, c.id = id
  · rw [if_pos h1]
    exact Or.inl ⟨_, rfl⟩
  · rw [if_neg h1]
    by_cases h2 : ∃ u ∈ db.users, u.id = user_id
    · rw [if_neg (not_not.mpr h2)]
      by_cases h3 : ∃ p ∈ db.posts, p.id = post_id
      · rw [if_neg (not_not.mpr h3)]
        exact Or.inr ⟨rfl, h1, h2, h3⟩
      · rw [if_pos h3]
        exact Or.inl ⟨_, rfl⟩
    · rw [if_pos h2]
      exact Or.inl ⟨_, rfl⟩

theorem createComment_ok (db : Db) (content user_id post_id uuid : String) (now : Nat)
    (r : Comment) (h : (createComment db content user_id post_id uuid now).2 = .ok r) :
    (¬ ∃ c ∈ db.comments, c.id = uuidToBuffer uuid) ∧
    (∃ u ∈ db.users, u.id = uuidToBuffer user_id) ∧
    (∃ p ∈ db.posts, p.id = uuidToBuffer post_id) ∧
    (createComment db content user_id post_id uuid now).1 =
      incrementCommentCount
        { db with comments := db.comments ++
            [{ id := uuidToBuffer uuid, content := content, user_id := uuidToBuffer user_id,
               post_id := uuidToBuffer post_id, created_at := now, updated_at := now,
               deleted_at := none }] }
        (uuidToBuffer post_id) ∧
    (∃ u ∈ db.users, u.id = uuidToBuffer user_id ∧
      r = { id := bufferToUuid (uuidToBuffer uuid), content := content,
            user_id := bufferToUuid (uuidToBuffer user_id),
            post_id := bufferToUuid (uuidToBuffer post_id),
            created_at := now, updated_at := now, deleted_at := none,
            author := u.nickname }) := by
  unfold createComment at h ⊢
  simp only at h ⊢
  rcases insertComment_cases db (uuidToBuffer uuid) content (uuidToBuffer user_id)
    (uuidToBuffer post_id) now with ⟨e, he⟩ | ⟨hok, h1, h2, h3⟩
  · rw [he] at h
    exact absurd h (by simp)
  · rw [hok] at h ⊢
    simp only at h ⊢
    split at h
    · exact absurd h (by simp)
    · rename_i j js hsel
      refine ⟨h1, h2, h3, rfl, ?_⟩
      simp only [Except.ok.injEq] at h
      have hj : j ∈ selectById (incrementCommentCount
          { db with comments := db.comments ++
              [{ id := uuidToBuffer uuid, content := content, user_id := uuidToBuffer user_id,
                 post_id := uuidToBuffer post_id, created_at := now, updated_at := now,
                 deleted_at := none }] }
          (uuidToBuffer post_id)) (uuidToBuffer uuid) := by
        rw [hsel]
        simp
      obtain ⟨hmem, hid, _, u, hu, huid, hau⟩ := (mem_selectById _ _ j).mp hj
      simp only [incrementCommentCount, List.mem_append, List.mem_singleton] at hmem hu
      rcases hmem with hmem | hmem
      · exact absurd ⟨j.row, hmem, hid⟩ h1
      · refine ⟨u, hu, ?_, ?_⟩
        · rw [huid, hmem]
        · rw [← h]
          unfold toComment
          rw [hmem, hau]

theorem createComment_comments (db : Db) (content user_id post_id uuid : String) (now : Nat) :
    (createComment db content user_id post_id uuid now).1.comments = db.comments ∨
    ((createComment db content user_id post_id uuid now).1.comments = db.comments ++
      [{ id := uuidToBuffer uuid, content := content, user_id := uuidToBuffer user_id,
         post_id := uuidToBuffer post_id, created_at := now, updated_at := now,
         deleted_at := none }] ∧
      ∃ u ∈ db.users, u.id = uuidToBuffer user_id) := by
  unfold createComment
  simp only
  rcases insertComment_cases db (uuidToBuffer uuid) content (uuidToBuffer user_id)
    (uuidToBuffer post_id) now with ⟨e, he⟩ | ⟨hok, _, hu, _⟩
  · rw [he]
    exact Or.inl rfl
  · rw [hok]
    right
    simp only
    refine ⟨?_, hu⟩
    split <;> rfl

theorem createComment_users (db : Db) (content user_id post_id uuid : String) (now : Nat) :
    (createComment db content user_id post_id uuid now).1.users = db.users := by
  unfold createComment
  simp only
  rcases insertComment_cases db (uuidToBuffer uuid) content (uuidToBuffer user_id)
    (uuidToBuffer post_id) now with ⟨e, he⟩ | ⟨hok, _⟩
  · rw [he]
  · rw [hok]
    simp only
    split <;> rfl

/-- C5. When `createComment` returns, the id it drew was not in `comments`,
the table is the old one followed by one new row with that id, the given
content, user and post, both timestamps the server time and `deleted_at` null;
`users` is untouched; every post row keeps its place, the rows with the target
id and `deleted_at` null have `comment_count` one higher and every other post
row (a soft-deleted target included) is the same; and the value returned is the
new row with its ids decoded to text and the nickname of its author. -/
theorem createComment_postcondition (db : Db) (content user_id post_id uuid : String)
    (now : Nat) (r : Comment)
    (h : (createComment db content user_id post_id uuid now).2 = .ok r) :
    (∀ c ∈ db.comments, c.id ≠ uuidToBuffer uuid) ∧
    (createComment db content user_id post_id uuid now).1.comments = db.comments ++
      [{ id := uuidToBuffer uuid, content := content, user_id := uuidToBuffer user_id,
         post_id := uuidToBuffer post_id, created_at := now, updated_at := now,
         deleted_at := none }] ∧
    (createComment db content user_id post_id uuid now).1.users = db.users ∧
    (createComment db content user_id post_id uuid now).1.posts.length = db.posts.length ∧
    (∀ (i : Nat) (p : PostRow), db.posts[i]? = some p →
      (createComment db content user_id post_id uuid now).1.posts[i]? =
        some (if p.id = uuidToBuffer post_id ∧ p.deleted_at = none then
          { p with comment_count := p.comment_count + 1 } else p)) ∧
    (∃ u ∈ db.users, u.id = uuidToBuffer user_id ∧
      r = { id := bufferToUuid (uuidToBuffer uuid), content := content,
            user_id := bufferToUuid (uuidToBuffer user_id),
            post_id := bufferToUuid (uuidToBuffer post_id),
            created_at := now, updated_at := now, deleted_at := none,
            author := u.nickname }) := by
  obtain ⟨h1, _, _, hdb, hu⟩ := createComment_ok db content user_id post_id uuid now r h
  rw [hdb]
  refine ⟨fun c hc hid => h1 ⟨c, hc, hid⟩, rfl, rfl, ?_, ?_, hu⟩
  · simp [incrementCommentCount]
  · intro i p hp
    simp only [incrementCommentCount, List.getElem?_map, hp, Option.map_some']

/-- The create postcondition at the first create of the example run. -/
theorem createComment_postcondition_witness :
    (createComment store0 "first" userU postP idC1 1).2 =
      .ok { id := idC1, content := "first", user_id := userU, post_id := postP,
            created_at := 1, updated_at := 1, deleted_at := none, author := "leo" } ∧
    (createComment store0 "first" userU postP idC1 1).1.posts.length = store0.posts.length :=
  ⟨by decide, (createComment_postcondition store0 "first" userU postP idC1 1
    { id := idC1, content := "first", user_id := userU, post_id := postP,
      created_at := 1, updated_at := 1, deleted_at := none, author := "leo" }
    (by decide)).2.2.2.1⟩

theorem mem_selectById_updateContent (db : Db) (content : String) (id : Buffer)
    (j : JoinedRow) :
    j ∈ selectById (updateContent db content id) id ↔
      ∃ c ∈ db.comments, c.id = id ∧ c.deleted_at = none ∧
        ∃ u ∈ db.users, u.id = c.user_id ∧
          j = ⟨{ c with content := content }, u.nickname⟩ := by
  rw [mem_selectById]
  simp only [updateContent, List.mem_map]
  constructor
  · rintro ⟨⟨c, hc, hrow⟩, hid, hdel, u, hu, huid, hau⟩
    by_cases hcond : c.id = id ∧ c.deleted_at = none
    · rw [if_pos hcond] at hrow
      refine ⟨c, hc, hcond.1, hcond.2, u, hu, ?_, ?_⟩
      · rw [huid, ← hrow]
      · cases j
        simp only [JoinedRow.mk.injEq]
        exact ⟨hrow.symm, hau⟩
    · rw [if_neg hcond] at hrow
      subst hrow
      exact absurd ⟨hid, hdel⟩ hcond
  · rintro ⟨c, hc, hid, hdel, u, hu, huid, rfl⟩
    refine ⟨⟨c, hc, ?_⟩, hid, hdel, u, hu, huid, rfl⟩
    rw [if_pos ⟨hid, hdel⟩]

theorem updateContent_of_no_live (db : Db) (content : String) (id : Buffer)
    (h : ¬ ∃ c ∈ db.comments, c.id = id ∧ c.deleted_at = none) :
    updateContent db content id = db := by
  have hmap : db.comments.map (fun c =>
      if c.id = id ∧ c.deleted_at = none then
        { c with content := content, updated_at := c.updated_at }
      else c) = db.comments := by
    conv_rhs => rw [← List.map_id db.comments]
    apply List.map_congr_left
    intro c hc
    rw [if_neg (fun hcond => h ⟨c, hc, hcond⟩)]
    rfl
  unfold updateContent
  rw [hmap]

theorem updateComment_fst (db : Db) (comment_id content : String) :
    (updateComment db comment_id content).1 =
      updateContent db content (uuidToBuffer comment_id) := by
  unfold updateComment
  simp only
  split <;> rfl

theorem updateComment_cases (db : Db) (comment_id content : String) :
    ((updateComment db comment_id content).2 = .error .updatedCommentNotFound ↔
      ¬ ∃ c ∈ db.comments, c.id = uuidToBuffer comment_id ∧ c.deleted_at = none ∧
        ∃ u ∈ db.users, u.id = c.user_id) ∧
    (∀ e, (updateComment db comment_id content).2 = .error e → e = .updatedCommentNotFound) ∧
    (∀ r, (updateComment db comment_id content).2 = .ok r →
      ∃ c ∈ db.comments, c.id = uuidToBuffer comment_id ∧ c.deleted_at = none ∧
        ∃ u ∈ db.users, u.id = c.user_id ∧
          r = toComment ⟨{ c with content := content }, u.nickname⟩) := by
  have hmem := mem_selectById_updateContent db content (uuidToBuffer comment_id)
  refine ⟨?_, ?_, ?_⟩
  · unfold updateComment
    simp only
    split
    · rename_i hsel
      refine ⟨fun _ => ?_, fun _ => rfl⟩
      rintro ⟨c, hc, hid, hdel, u, hu, huid⟩
      have := (hmem ⟨{ c with content := content }, u.nickname⟩).mpr
        ⟨c, hc, hid, hdel, u, hu, huid, rfl⟩
      rw [hsel] at this
      exact absurd this (by simp)
    · rename_i j js hsel
      refine ⟨fun h => absurd h (by simp), fun h => ?_⟩
      obtain ⟨c, hc, hid, hdel, u, hu, huid, _⟩ := (hmem j).mp (by rw [hsel]; simp)
      exact absurd ⟨c, hc, hid, hdel, u, hu, huid⟩ h
  · intro e he
    unfold updateComment at he
    simp only at he
    split at he
    · simp only [Except.error.injEq] at he
      exact he.symm
    · exact absurd he (by simp)
  · intro r hr
    unfold updateComment at hr
    simp only at hr
    split at hr
    · exact absurd hr (by simp)
    · rename_i j js hsel
      simp only [Except.ok.injEq] at hr
      obtain ⟨c, hc, hid, hdel, u, hu, huid, hj⟩ := (hmem j).mp (by rw [hsel]; simp)
      exact ⟨c, hc, hid, hdel, u, hu, huid, by rw [← hr, hj]⟩

/-- C6. `updateComment` throws exactly when no row of `comments` has the given
id, `deleted_at` null and an author in `users`, and the only thing it throws is
the Not-Found error; in a store where every comment's `user_id` names a user
(the foreign key of the schema), a failing call leaves the store as it was; a
call that returns gives back a live comment of that id with the content
replaced by the new content and the nickname of its author, and leaves `posts`
and `users` as they were. -/
theorem updateComment_error_contract (db : Db) (comment_id content : String) :
    ((updateComment db comment_id content).2 = .error .updatedCommentNotFound ↔
      ¬ ∃ c ∈ db.comments, c.id = uuidToBuffer comment_id ∧ c.deleted_at = none ∧
        ∃ u ∈ db.users, u.id = c.user_id) ∧
    (∀ e, (updateComment db comment_id content).2 = .error e → e = .updatedCommentNotFound) ∧
    ((∀ c ∈ db.comments, ∃ u ∈ db.users, u.id = c.user_id) →
      (updateComment db comment_id content).2 = .error .updatedCommentNotFound →
      (updateComment db comment_id content).1 = db) ∧
    (∀ r, (updateComment db comment_id content).2 = .ok r →
      (∃ c ∈ db.comments, c.id = uuidToBuffer comment_id ∧ c.deleted_at = none ∧
        ∃ u ∈ db.users, u.id = c.user_id ∧
          r = toComment ⟨{ c with content := content }, u.nickname⟩) ∧
      r.content = content ∧
      (updateComment db comment_id content).1.posts = db.posts ∧
      (updateComment db comment_id content).1.users = db.users) := by
  obtain ⟨hfail, honly, hok⟩ := updateComment_cases db comment_id content
  refine ⟨hfail, honly, ?_, ?_⟩
  · intro hfk hf
    have hno : ¬ ∃ c ∈ db.comments, c.id = uuidToBuffer comment_id ∧ c.deleted_at = none := by
      rintro ⟨c, hc, hid, hdel⟩
      obtain ⟨u, hu, huid⟩ := hfk c hc
      exact (hfail.mp hf) ⟨c, hc, hid, hdel, u, hu, huid⟩
    rw [updateComment_fst]
    exact updateContent_of_no_live db content (uuidToBuffer comment_id) hno
  · intro r hr
    obtain ⟨c, hc, hid, hdel, u, hu, huid, hrr⟩ := hok r hr
    refine ⟨⟨c, hc, hid, hdel, u, hu, huid, hrr⟩, ?_, ?_, ?_⟩
    · rw [hrr]
      rfl
    · rw [updateComment_fst]
      rfl
    · rw [updateComment_fst]
      rfl

/-- The update contract at the example store: the deleted comment C1 cannot be
edited and the failing call leaves the store as it was. -/
theorem updateComment_error_contract_witness :
    (∀ c ∈ store3.comments, ∃ u ∈ store3.users, u.id = c.user_id) ∧
    (updateComment store3 idC1 "edited").2 = .error .updatedCommentNotFound ∧
    (updateComment store3 idC1 "edited").1 = store3 :=
  ⟨by decide, by decide,
    (updateComment_error_contract store3 idC1 "edited").2.2.1 (by decide) (by decide)⟩

theorem deleteComment_fst (db : Db) (comment_id post_id : String) (now : Nat) :
    (deleteComment db comment_id post_id now).1 =
      decrementCommentCount (softDeleteComment db (uuidToBuffer comment_id) now)
        (uuidToBuffer post_id) := rfl

/-- C4, as the code has it. For every live comment `c` of a store whose
comment ids are distinct, and every `post_id` argument, `deleteComment(c.id,
post_id)` returns `{ id }` with the caller's `comment_id`, sets `deleted_at`
of `c` to the server time and leaves every other comment row and all other
columns of `c` as they were, and lowers by exactly 1 the `comment_count` of the
post rows whose id is the `post_id` argument and whose `deleted_at` is null,
leaving every other post row and `users` as they were. -/
theorem deleteComment_postcondition (db : Db) (comment_id post_id : String) (now : Nat)
    (c : CommentRow) (hc : c ∈ db.comments) (hid : c.id = uuidToBuffer comment_id)
    (hlive : c.deleted_at = none) (hpk : (db.comments.map (fun x => x.id)).Nodup) :
    (deleteComment db comment_id post_id now).2 = .ok { id := comment_id } ∧
    (deleteComment db comment_id post_id now).1.comments.length = db.comments.length ∧
    (∀ (i : Nat) (x : CommentRow), db.comments[i]? = some x →
      (deleteComment db comment_id post_id now).1.comments[i]? =
        some (if x = c then { c with deleted_at := some now } else x)) ∧
    (deleteComment db comment_id post_id now).1.posts.length = db.posts.length ∧
    (∀ (i : Nat) (p : PostRow), db.posts[i]? = some p →
      (deleteComment db comment_id post_id now).1.posts[i]? =
        some (if p.id = uuidToBuffer post_id ∧ p.deleted_at = none then
          { p with comment_count := p.comment_count - 1 } else p)) ∧
    (deleteComment db comment_id post_id now).1.users = db.users := by
  rw [deleteComment_fst]
  refine ⟨rfl, ?_, ?_, ?_, ?_, rfl⟩
  · simp [decrementCommentCount, softDeleteComment]
  · intro i x hx
    simp only [decrementCommentCount, softDeleteComment, List.getElem?_map, hx, Option.map_some',
      Option.some.injEq]
    have hxm : x ∈ db.comments := List.getElem?_mem hx
    by_cases hxc : x = c
    · subst hxc
      rw [if_pos ⟨hid, hlive⟩, if_pos rfl]
    · rw [if_neg hxc, if_neg]
      rintro ⟨hxid, _⟩
      exact hxc (List.inj_on_of_nodup_map hpk hxm hc (hxid.trans hid.symm))
  · simp [decrementCommentCount, softDeleteComment]
  · intro i p hp
    simp only [decrementCommentCount, softDeleteComment, List.getElem?_map, hp, Option.map_some']

/-- The delete postcondition at the example store, deleting C1 under its own
post P. -/
theorem deleteComment_postcondition_witness :
    (store2.comments.map (fun x => x.id)).Nodup ∧
    (deleteComment store2 idC1 postP 3).2 = .ok { id := idC1 } :=
  ⟨by decide,
    (deleteComment_postcondition store2 idC1 postP 3
      { id := uuidToBuffer idC1, content := "first", user_id := uuidToBuffer userU,
        post_id := uuidToBuffer postP, created_at := 1, updated_at := 1, deleted_at := none }
      (by decide) (by decide) (by decide) (by decide)).1⟩

/-- C4 as stated fails. In the two-post store C1 is live and references the
live post P; `deleteComment(C1, Q)` leaves the `comment_count` of P at 1 and
lowers that of Q, which C1 does not reference, from 1 to 0. -/
theorem deleteComment_counter_follows_argument :
    (∃ c ∈ storePQ.comments, c.id = uuidToBuffer idC1 ∧ c.deleted_at = none ∧
      c.post_id = uuidToBuffer postP) ∧
    storePQ.posts =
      [{ id := uuidToBuffer postP, comment_count := 1, updated_at := 0, deleted_at := none },
       { id := uuidToBuffer postQ, comment_count := 1, updated_at := 0, deleted_at := none }] ∧
    (deleteComment storePQ idC1 postQ 3).1.posts =
      [{ id := uuidToBuffer postP, comment_count := 1, updated_at := 0, deleted_at := none },
       { id := uuidToBuffer postQ, comment_count := 0, updated_at := 0, deleted_at := none }] := by
  decide

/-- C3 at the failing input. In the example store C1 is already deleted (at
time 3) and C2 is the one live comment of P, whose `comment_count` is 1. A
second `deleteComment(C1, P)` returns without error and leaves `comments` as it
was, but lowers the `comment_count` of P to 0. -/
theorem deleteComment_twice_decrements_again :
    (∃ c ∈ store3.comments, c.id = uuidToBuffer idC1 ∧ c.deleted_at = some 3) ∧
    store3.posts.map (fun p => p.comment_count) = [1] ∧
    (deleteComment store3 idC1 postP 4).2 = .ok { id := idC1 } ∧
    (deleteComment store3 idC1 postP 4).1.comments = store3.comments ∧
    (deleteComment store3 idC1 postP 4).1.posts.map (fun p => p.comment_count) = [0] := by
  decide

/-! ## The life of a comment row -/

theorem step_keeps (db : Db) (op : Op) (i : Nat) (c : CommentRow)
    (h : db.comments[i]? = some c) :
    ∃ c', (step db op).comments[i]? = some c' ∧ c'.id = c.id ∧ c'.user_id = c.user_id ∧
      c'.post_id = c.post_id ∧
      (c.deleted_at ≠ none → c'.deleted_at = c.deleted_at ∧ c'.content = c.content) := by
  cases op with
  | create content user_id post_id uuid now =>
    refine ⟨c, ?_, rfl, rfl, rfl, fun _ => ⟨rfl, rfl⟩⟩
    simp only [step]
    rcases createComment_comments db content user_id post_id uuid now with hcs | ⟨hcs, _⟩
    · rw [hcs]
      exact h
    · rw [hcs, List.getElem?_append_left (List.getElem?_eq_some.mp h).1]
      exact h
  | delete comment_id post_id now =>
    simp only [step, deleteComment_fst, decrementCommentCount, softDeleteComment,
      List.getElem?_map, h, Option.map_some']
    by_cases hcond : c.id = uuidToBuffer comment_id ∧ c.deleted_at = none
    · rw [if_pos hcond]
      exact ⟨_, rfl, rfl, rfl, rfl, fun hd => absurd hcond.2 hd⟩
    · rw [if_neg hcond]
      exact ⟨_, rfl, rfl, rfl, rfl, fun _ => ⟨rfl, rfl⟩⟩
  | update comment_id content =>
    simp only [step, updateComment_fst, updateContent, List.getElem?_map, h, Option.map_some']
    by_cases hcond : c.id = uuidToBuffer comment_id ∧ c.deleted_at = none
    · rw [if_pos hcond]
      exact ⟨_, rfl, rfl, rfl, rfl, fun hd => absurd hcond.2 hd⟩
    · rw [if_neg hcond]
      exact ⟨_, rfl, rfl, rfl, rfl, fun _ => ⟨rfl, rfl⟩⟩

/-- C10. Along every sequence of `createComment`, `deleteComment` and
`updateComment` calls, whether they return or throw, a row of `comments` stays
in the table at its place with the same `id`, `user_id` and `post_id`, and a
row whose `deleted_at` is non-null keeps its `deleted_at` and its `content`. -/
theorem soft_delete_lifecycle (ops : List Op) (db : Db) (i : Nat) (c : CommentRow)
    (h : db.comments[i]? = some c) :
    ∃ c', (ops.foldl step db).comments[i]? = some c' ∧ c'.id = c.id ∧
      c'.user_id = c.user_id ∧ c'.post_id = c.post_id ∧
      (c.deleted_at ≠ none → c'.deleted_at = c.deleted_at ∧ c'.content = c.content) := by
  induction ops generalizing db c with
  | nil => exact ⟨c, h, rfl, rfl, rfl, fun _ => ⟨rfl, rfl⟩⟩
  | cons op ops ih =>
    obtain ⟨c1, h1, e1, e2, e3, e4⟩ := step_keeps db op i c h
    obtain ⟨c2, h2, f1, f2, f3, f4⟩ := ih (step db op) c1 h1
    refine ⟨c2, h2, f1.trans e1, f2.trans e2, f3.trans e3, fun hd => ?_⟩
    obtain ⟨g1, g2⟩ := e4 hd
    obtain ⟨g3, g4⟩ := f4 (by rw [g1]; exact hd)
    exact ⟨g3.trans g1, g4.trans g2⟩

/-- The lifecycle theorem at the example store: the deleted row C1 survives a
second delete, an edit and a create unchanged. -/
theorem soft_delete_lifecycle_witness :
    store3.comments[0]? =
      some { id := uuidToBuffer idC1, content := "first", user_id := uuidToBuffer userU,
             post_id := uuidToBuffer postP, created_at := 1, updated_at := 1,
             deleted_at := some 3 } ∧
    ∃ c', ([Op.delete idC1 postP 4, Op.update idC1 "edited",
        Op.create "third" userU postP idC1 5].foldl step store3).comments[0]? = some c' ∧
      c'.id = uuidToBuffer idC1 ∧ c'.user_id = uuidToBuffer userU ∧
      c'.post_id = uuidToBuffer postP ∧
      ((some 3 : Option Nat) ≠ none → c'.deleted_at = some 3 ∧ c'.content = "first") :=
  ⟨by decide,
    soft_delete_lifecycle [Op.delete idC1 postP 4, Op.update idC1 "edited",
      Op.create "third" userU postP idC1 5] store3 0
      { id := uuidToBuffer idC1, content := "first", user_id := uuidToBuffer userU,
        post_id := uuidToBuffer postP, created_at := 1, updated_at := 1,
        deleted_at := some 3 } (by decide)⟩

/-- No operation touches `users`. -/
theorem step_users (db : Db) (op : Op) : (step db op).users = db.users := by
  cases op with
  | create content user_id post_id uuid now =>
    exact createComment_users db content user_id post_id uuid now
  | delete comment_id post_id now => rfl
  | update comment_id content =>
    simp only [step, updateComment_fst]
    rfl

/-- The foreign key `comments.user_id -> users.id` holds after every call made
on a store in which it holds. -/
theorem step_foreign_key (db : Db) (op : Op)
    (hfk : ∀ c ∈ db.comments, ∃ u ∈ db.users, u.id = c.user_id) :
    ∀ c ∈ (step db op).comments, ∃ u ∈ (step db op).users, u.id = c.user_id := by
  rw [step_users]
  intro c hc
  cases op with
  | create content user_id post_id uuid now =>
    simp only [step] at hc
    rcases createComment_comments db content user_id post_id uuid now with hcs | ⟨hcs, hu⟩
    · rw [hcs] at hc
      exact hfk c hc
    · rw [hcs] at hc
      rcases List.mem_append.mp hc with hc | hc
      · exact hfk c hc
      · rw [List.mem_singleton] at hc
        rw [hc]
        exact hu
  | delete comment_id post_id now =>
    simp only [step, deleteComment_fst, decrementCommentCount, softDeleteComment,
      List.mem_map] at hc
    obtain ⟨x, hx, rfl⟩ := hc
    obtain ⟨u, hu, huid⟩ := hfk x hx
    refine ⟨u, hu, ?_⟩
    split <;> exact huid
  | update comment_id content =>
    simp only [step, updateComment_fst, updateContent, List.mem_map] at hc
    obtain ⟨x, hx, rfl⟩ := hc
    obtain ⟨u, hu, huid⟩ := hfk x hx
    refine ⟨u, hu, ?_⟩
    split <;> exact huid

/-! ## The counter -/

theorem liveCount_append (db : Db) (row : CommentRow) (posts : List PostRow) (pid : Buffer) :
    liveCount { db with comments := db.comments ++ [row], posts := posts } pid =
      liveCount db pid + (if row.post_id = pid ∧ row.deleted_at = none then 1 else 0) := by
  unfold liveCount
  simp only [List.filter_append, List.length_append, List.filter_cons, List.filter_nil]
  by_cases h : row.post_id = pid ∧ row.deleted_at = none
  · simp [h]
  · simp [h]

theorem softDelete_filter_length (now : Nat) (pid : Buffer) (c : CommentRow)
    (hlive : c.deleted_at = none) :
    ∀ l : List CommentRow, c ∈ l → (l.map (fun x => x.id)).Nodup →
      ((l.map (fun x => if x.id = c.id ∧ x.deleted_at = none then
            { x with deleted_at := some now, updated_at := x.updated_at } else x)).filter
          (fun x => decide (x.post_id = pid ∧ x.deleted_at = none))).length +
        (if c.post_id = pid then 1 else 0) =
      (l.filter (fun x => decide (x.post_id = pid ∧ x.deleted_at = none))).length := by
  intro l
  induction l with
  | nil => intro hc; exact absurd hc (by simp)
  | cons x xs ih =>
    intro hc hnd
    have hnd2 : (∀ y ∈ xs, ¬ y.id = x.id) ∧ (xs.map (fun x => x.id)).Nodup := by
      simpa using hnd
    by_cases hxc : c = x
    · subst hxc
      have hrest : xs.map (fun x => if x.id = c.id ∧ x.deleted_at = none then
          { x with deleted_at := some now, updated_at := x.updated_at } else x) = xs := by
        conv_rhs => rw [← List.map_id xs]
        apply List.map_congr_left
        intro y hy
        rw [if_neg (fun hcond => hnd2.1 y hy hcond.1)]
        rfl
      rw [List.map_cons, hrest, if_pos (And.intro rfl hlive)]
      simp only [List.filter_cons]
      by_cases hp : c.post_id = pid
      · simp [hp, hlive]
      · simp [hp]
    · have hcxs : c ∈ xs := by
        rcases List.mem_cons.mp hc with h | h
        · exact absurd h hxc
        · exact h
      have hx : ¬ (x.id = c.id ∧ x.deleted_at = none) := by
        rintro ⟨hid, _⟩
        exact hnd2.1 c hcxs hid.symm
      have ih := ih hcxs hnd2.2
      simp only [List.map_cons, if_neg hx, List.filter_cons]
      by_cases hp : x.post_id = pid ∧ x.deleted_at = none
      · simp only [hp, and_self, decide_True, if_true, List.length_cons]
        omega
      · simp only [hp, decide_False, Bool.false_eq_true, if_false]
        exact ih

theorem step_create_invariant (db : Db) (content user_id post_id uuid : String) (now : Nat)
    (hpk : (db.comments.map (fun c => c.id)).Nodup) (hcons : LiveCounterConsistent db)
    (hok : completes db (.create content user_id post_id uuid now) = true) :
    ((step db (.create content user_id post_id uuid now)).comments.map (fun c => c.id)).Nodup ∧
    LiveCounterConsistent (step db (.create content user_id post_id uuid now)) := by
  simp only [completes] at hok
  split at hok
  · rename_i r hr
    obtain ⟨hfresh, _, _, hdb, _⟩ := createComment_ok db content user_id post_id uuid now r hr
    simp only [step]
    rw [hdb]
    constructor
    · simp only [incrementCommentCount, List.map_append, List.map_cons, List.map_nil]
      refine List.Nodup.append hpk (List.nodup_singleton _) ?_
      intro a ha1 ha2
      rw [List.mem_singleton] at ha2
      obtain ⟨c, hc, hca⟩ := List.mem_map.mp ha1
      exact hfresh ⟨c, hc, hca.trans ha2⟩
    · intro p' hp' hlive'
      simp only [incrementCommentCount, List.mem_map] at hp'
      obtain ⟨p, hp, rfl⟩ := hp'
      have hlc : ∀ pid, liveCount (incrementCommentCount
          { db with comments := db.comments ++
              [{ id := uuidToBuffer uuid, content := content, user_id := uuidToBuffer user_id,
                 post_id := uuidToBuffer post_id, created_at := now, updated_at := now,
                 deleted_at := none }] }
          (uuidToBuffer post_id)) pid =
          liveCount db pid + (if uuidToBuffer post_id = pid then 1 else 0) := by
        intro pid
        have := liveCount_append db
          { id := uuidToBuffer uuid, content := content, user_id := uuidToBuffer user_id,
            post_id := uuidToBuffer post_id, created_at := now, updated_at := now,
            deleted_at := none } db.posts pid
        simp only [and_true] at this
        rw [← this]
        rfl
      rw [hlc]
      by_cases hcond : p.id = uuidToBuffer post_id ∧ p.deleted_at = none
      · rw [if_pos hcond] at hlive' ⊢
        simp only
        rw [if_pos hcond.1.symm, hcons p hp hcond.2]
        push_cast
        rfl
      · rw [if_neg hcond] at hlive' ⊢
        have hne : ¬ uuidToBuffer post_id = p.id := fun h => hcond ⟨h.symm, hlive'⟩
        rw [if_neg hne, hcons p hp hlive']
        simp
  · exact absurd hok (by simp)

theorem step_delete_invariant (db : Db) (comment_id post_id : String) (now : Nat)
    (hpk : (db.comments.map (fun c => c.id)).Nodup) (hcons : LiveCounterConsistent db)
    (ht : targeted db (.delete comment_id post_id now) = true) :
    ((step db (.delete comment_id post_id now)).comments.map (fun c => c.id)).Nodup ∧
    LiveCounterConsistent (step db (.delete comment_id post_id now)) := by
  simp only [targeted, List.any_eq_true, decide_eq_true_eq] at ht
  obtain ⟨c, hc, hid, hlive, hpost⟩ := ht
  simp only [step, deleteComment_fst]
  constructor
  · have : (decrementCommentCount (softDeleteComment db (uuidToBuffer comment_id) now)
        (uuidToBuffer post_id)).comments.map (fun c => c.id) =
        db.comments.map (fun c => c.id) := by
      simp only [decrementCommentCount, softDeleteComment, List.map_map]
      apply List.map_congr_left
      intro x _
      simp only [Function.comp]
      split <;> rfl
    rw [this]
    exact hpk
  · intro p' hp' hlive'
    simp only [decrementCommentCount, softDeleteComment, List.mem_map] at hp'
    obtain ⟨p, hp, rfl⟩ := hp'
    have hlc : ∀ pid, liveCount (decrementCommentCount
        (softDeleteComment db (uuidToBuffer comment_id) now) (uuidToBuffer post_id)) pid +
          (if uuidToBuffer post_id = pid then 1 else 0) = liveCount db pid := by
      intro pid
      have := softDelete_filter_length now pid c hlive db.comments hc hpk
      rw [hid, hpost] at this
      exact this
    by_cases hcond : p.id = uuidToBuffer post_id ∧ p.deleted_at = none
    · rw [if_pos hcond] at hlive' ⊢
      simp only
      have h1 := hlc p.id
      rw [if_pos hcond.1.symm] at h1
      rw [hcons p hp hcond.2, ← h1]
      push_cast
      ring
    · rw [if_neg hcond] at hlive' ⊢
      have hne : ¬ uuidToBuffer post_id = p.id := fun h => hcond ⟨h.symm, hlive'⟩
      have h1 := hlc p.id
      rw [if_neg hne] at h1
      rw [hcons p hp hlive', ← h1]
      simp

/-- C1, as the code has it. Start from a store whose comment ids are distinct
and in which every post with `deleted_at` null has as `comment_count` the
number of its live comments. After every finite sequence of `createComment`
and `deleteComment` calls that each complete without error, each delete naming
a comment that is live when it runs together with that comment's own
`post_id`, the comment ids are still distinct and every post with `deleted_at`
null still has as `comment_count` the number of its live comments. -/
theorem counter_consistency (ops : List Op) (db : Db)
    (hpk : (db.comments.map (fun c => c.id)).Nodup) (hcons : LiveCounterConsistent db)
    (hadm : admissible db ops = true) :
    ((ops.foldl step db).comments.map (fun c => c.id)).Nodup ∧
    LiveCounterConsistent (ops.foldl step db) := by
  induction ops generalizing db with
  | nil => exact ⟨hpk, hcons⟩
  | cons op ops ih =>
    simp only [admissible, Bool.and_eq_true] at hadm
    obtain ⟨⟨hok, ht⟩, hrest⟩ := hadm
    have hstep : ((step db op).comments.map (fun c => c.id)).Nodup ∧
        LiveCounterConsistent (step db op) := by
      cases op with
      | create content user_id post_id uuid now =>
        exact step_create_invariant db content user_id post_id uuid now hpk hcons hok
      | delete comment_id post_id now =>
        exact step_delete_invariant db comment_id post_id now hpk hcons ht
      | update comment_id content => exact absurd ht (by simp [targeted])
    exact ih (step db op) hstep.1 hstep.2 hrest

/-- The counter theorem on the example run: create C1, create C2, delete C1. -/
theorem counter_consistency_witness :
    (store0.comments.map (fun c => c.id)).Nodup ∧ LiveCounterConsistent store0 ∧
    admissible store0 [Op.create "first" userU postP idC1 1,
      Op.create "second" userU postP idC2 2, Op.delete idC1 postP 3] = true ∧
    LiveCounterConsistent ([Op.create "first" userU postP idC1 1,
      Op.create "second" userU postP idC2 2, Op.delete idC1 postP 3].foldl step store0) :=
  ⟨by decide, by decide, by decide,
    (counter_consistency [Op.create "first" userU postP idC1 1,
      Op.create "second" userU postP idC2 2, Op.delete idC1 postP 3] store0
      (by decide) (by decide) (by decide)).2⟩

/-- C1 as stated fails. The store with one soft-deleted post and no comment is
consistent; `createComment` on that post completes without error; afterwards
the post has one live comment and `comment_count` 0. Likewise the example store
after create C1, create C2, delete C1 is consistent, a second delete of C1
completes without error, and afterwards P has one live comment and
`comment_count` 0. -/
theorem counter_consistency_fails :
    (CounterConsistent storeD ∧
      completes storeD (Op.create "first" userU postP idC1 1) = true ∧
      ¬ CounterConsistent (step storeD (Op.create "first" userU postP idC1 1))) ∧
    (CounterConsistent store3 ∧
      completes store3 (Op.delete idC1 postP 4) = true ∧
      ¬ CounterConsistent (step store3 (Op.delete idC1 postP 4))) := by
  decide

/-! ## Identifiers at the boundary -/

/-- C2. For every canonical hyphenated UUID text `x`, `uuidToBuffer x` has 16
bytes and `bufferToUuid (uuidToBuffer x) = x`; consequently the ids the
operations encode for a query come back as the text put in: every comment
listed for post `x` has `post_id` `x`, the comment read or edited under id `x`
has `id` `x`, and a comment created with generated id, post or user `x` is
returned with that text in the matching field. -/
theorem codec_round_trip (x : String) (hx : isValidUuid x = true) :
    bufferToUuid (uuidToBuffer x) = x ∧ (uuidToBuffer x).length = 16 ∧
    (∀ db, ∀ r ∈ getCommentsByPostId db x, r.post_id = x) ∧
    (∀ db r, getCommentById db x = some r → r.id = x) ∧
    (∀ db content r, (updateComment db x content).2 = .ok r → r.id = x) ∧
    (∀ db content user_id post_id now r,
      (createComment db content user_id post_id x now).2 = .ok r → r.id = x) ∧
    (∀ db content user_id uuid now r,
      (createComment db content user_id x uuid now).2 = .ok r → r.post_id = x) ∧
    (∀ db content post_id uuid now r,
      (createComment db content x post_id uuid now).2 = .ok r → r.user_id = x) := by
  obtain ⟨hrt, hlen⟩ := bufferToUuid_uuidToBuffer x hx
  refine ⟨hrt, hlen, ?_, ?_, ?_, ?_, ?_, ?_⟩
  · intro db r hr
    unfold getCommentsByPostId at hr
    obtain ⟨j, hj, rfl⟩ := List.mem_map.mp hr
    have := ((mem_selectByPostId db _ j).mp hj).2.1
    show bufferToUuid j.row.post_id = x
    rw [this, hrt]
  · intro db r hr
    obtain ⟨j, hj, rfl⟩ := getCommentById_eq_some db x r hr
    have := ((mem_selectById db _ j).mp hj).2.1
    show bufferToUuid j.row.id = x
    rw [this, hrt]
  · intro db content r hr
    obtain ⟨c, _, hid, _, u, _, _, rfl⟩ :=
      (updateComment_cases db x content).2.2 r hr
    show bufferToUuid c.id = x
    rw [hid, hrt]
  · intro db content user_id post_id now r hr
    obtain ⟨_, _, _, _, u, _, _, rfl⟩ :=
      createComment_ok db content user_id post_id x now r hr
    exact hrt
  · intro db content user_id uuid now r hr
    obtain ⟨_, _, _, _, u, _, _, rfl⟩ :=
      createComment_ok db content user_id x uuid now r hr
    exact hrt
  · intro db content post_id uuid now r hr
    obtain ⟨_, _, _, _, u, _, _, rfl⟩ :=
      createComment_ok db content x post_id uuid now r hr
    exact hrt

/-- The round trip at the id of the example post. -/
theorem codec_round_trip_witness :
    isValidUuid postP = true ∧ bufferToUuid (uuidToBuffer postP) = postP ∧
    (uuidToBuffer postP).length = 16 :=
  ⟨by decide, (codec_round_trip postP (by decide)).1, (codec_round_trip postP (by decide)).2.1⟩

/-! ## Order of the list after an edit -/

theorem orderedInsert_map (h : JoinedRow → JoinedRow)
    (hh : ∀ j, (h j).row.updated_at = j.row.updated_at) (x : JoinedRow) (l : List JoinedRow) :
    orderedInsert (h x) (l.map h) = (orderedInsert x l).map h := by
  induction l with
  | nil => rfl
  | cons y ys ih =>
    simp only [List.map_cons, orderedInsert, hh]
    split
    · rfl
    · rw [List.map_cons, ih]

theorem orderByUpdatedAt_map (h : JoinedRow → JoinedRow)
    (hh : ∀ j, (h j).row.updated_at = j.row.updated_at) (l : List JoinedRow) :
    orderByUpdatedAt (l.map h) = (orderByUpdatedAt l).map h := by
  induction l with
  | nil => rfl
  | cons x xs ih =>
    simp only [List.map_cons, orderByUpdatedAt]
    rw [ih, orderedInsert_map h hh]

/-- A rewrite of comment rows that keeps `user_id`, `post_id`, `deleted_at` and
`updated_at` commutes with the list query. -/
theorem selectByPostId_map_rows (g : CommentRow → CommentRow)
    (hg : ∀ c, (g c).user_id = c.user_id ∧ (g c).post_id = c.post_id ∧
      (g c).deleted_at = c.deleted_at ∧ (g c).updated_at = c.updated_at)
    (db : Db) (pid : Buffer) :
    selectByPostId { db with comments := db.comments.map g } pid =
      (selectByPostId db pid).map (fun j => ⟨g j.row, j.author⟩) := by
  unfold selectByPostId
  rw [← orderByUpdatedAt_map _ (fun j => (hg j.row).2.2.2)]
  congr 1
  simp only
  generalize db.comments = l
  induction l with
  | nil => rfl
  | cons c cs ih =>
    have hjoin : joinUsers db.users (g c) =
        (joinUsers db.users c).map (fun j => ⟨g j.row, j.author⟩) := by
      unfold joinUsers
      rw [(hg c).1, List.map_map]
      rfl
    simp only [List.map_cons, List.filter_cons, (hg c).2.1, (hg c).2.2.1]
    split
    · rw [List.flatMap_cons, List.flatMap_cons, List.map_append, ih, hjoin]
    · exact ih

theorem updateContent_keeps (content : String) (id : Buffer) (c : CommentRow) :
    ((if c.id = id ∧ c.deleted_at = none then
        { c with content := content, updated_at := c.updated_at } else c).user_id = c.user_id ∧
      (if c.id = id ∧ c.deleted_at = none then
        { c with content := content, updated_at := c.updated_at } else c).post_id = c.post_id ∧
      (if c.id = id ∧ c.deleted_at = none then
        { c with content := content, updated_at := c.updated_at } else c).deleted_at =
          c.deleted_at ∧
      (if c.id = id ∧ c.deleted_at = none then
        { c with content := content, updated_at := c.updated_at } else c).updated_at =
          c.updated_at) ∧
    (if c.id = id ∧ c.deleted_at = none then
        { c with content := content, updated_at := c.updated_at } else c).id = c.id := by
  split <;> exact ⟨⟨rfl, rfl, rfl, rfl⟩, rfl⟩

theorem getCommentsByPostId_updateComment_ids (db : Db) (comment_id content post_id : String) :
    (getCommentsByPostId (updateComment db comment_id content).1 post_id).map (fun r => r.id) =
      (getCommentsByPostId db post_id).map (fun r => r.id) := by
  rw [updateComment_fst]
  unfold getCommentsByPostId
  simp only
  have := selectByPostId_map_rows _
    (fun c => (updateContent_keeps content (uuidToBuffer comment_id) c).1) db
    (uuidToBuffer post_id)
  unfold updateContent
  rw [this]
  simp only [List.map_map]
  apply List.map_congr_left
  intro j _
  simp only [Function.comp, toComment]
  rw [(updateContent_keeps content (uuidToBuffer comment_id) j.row).2]

theorem sorted_pair_sublist (a b : JoinedRow) (hlt : a.row.updated_at < b.row.updated_at) :
    ∀ l : List JoinedRow, l.Pairwise (fun x y => x.row.updated_at ≤ y.row.updated_at) →
      a ∈ l → b ∈ l → [a, b].Sublist l := by
  intro l
  induction l with
  | nil => intro _ ha; exact absurd ha (by simp)
  | cons x xs ih =>
    intro hp ha hb
    obtain ⟨hx, hxs⟩ := List.pairwise_cons.mp hp
    rcases List.mem_cons.mp hb with hbx | hbxs
    · rcases List.mem_cons.mp ha with hax | haxs
      · rw [hax, hbx] at hlt
        exact absurd hlt (Nat.lt_irrefl _)
      · have := hx a haxs
        rw [← hbx] at this
        omega
    · rcases List.mem_cons.mp ha with hax | haxs
      · rw [hax]
        exact List.Sublist.cons₂ x (List.singleton_sublist.mpr hbxs)
      · exact List.Sublist.cons x (ih hxs haxs hbxs)

/-- C7, as the code has it. `updateComment` keeps `updated_at`, so an edit
moves no comment: the list of a post shows the same ids in the same order
before and after the call. In particular, when A is created on a post at
server time `tA` and then B on the same post at a later time `tB`, an edit of A
succeeds, returns A with the new content, and `getCommentsByPostId` still lists
A before B. -/
theorem edit_keeps_list_order (db : Db)
    (contentA userA contentB userB post_id idA idB newContent : String) (tA tB : Nat)
    (rA rB : Comment)
    (hA : (createComment db contentA userA post_id idA tA).2 = .ok rA)
    (hB : (createComment (createComment db contentA userA post_id idA tA).1
      contentB userB post_id idB tB).2 = .ok rB)
    (hlt : tA < tB) :
    (∃ rE, (updateComment (createComment (createComment db contentA userA post_id idA tA).1
        contentB userB post_id idB tB).1 idA newContent).2 = .ok rE ∧
      rE.id = rA.id ∧ rE.content = newContent) ∧
    (getCommentsByPostId (updateComment (createComment
        (createComment db contentA userA post_id idA tA).1
        contentB userB post_id idB tB).1 idA newContent).1 post_id).map (fun r => r.id) =
      (getCommentsByPostId (createComment (createComment db contentA userA post_id idA tA).1
        contentB userB post_id idB tB).1 post_id).map (fun r => r.id) ∧
    [rA.id, rB.id].Sublist
      ((getCommentsByPostId (updateComment (createComment
        (createComment db contentA userA post_id idA tA).1
        contentB userB post_id idB tB).1 idA newContent).1 post_id).map (fun r => r.id)) := by
  obtain ⟨_, _, _, hdbA, uA, huA1, huA2, hrA⟩ :=
    createComment_ok db contentA userA post_id idA tA rA hA
  obtain ⟨_, _, _, hdbB, uB, huB1, huB2, hrB⟩ :=
    createComment_ok _ contentB userB post_id idB tB rB hB
  have hcA : (createComment db contentA userA post_id idA tA).1.comments = db.comments ++
      [CommentRow.mk (uuidToBuffer idA) contentA (uuidToBuffer userA)
        (uuidToBuffer post_id) tA tA none] := by
    rw [hdbA]
    rfl
  have huA : (createComment db contentA userA post_id idA tA).1.users = db.users := by
    rw [hdbA]
    rfl
  have hcB : (createComment (createComment db contentA userA post_id idA tA).1
      contentB userB post_id idB tB).1.comments =
      (createComment db contentA userA post_id idA tA).1.comments ++
      [CommentRow.mk (uuidToBuffer idB) contentB (uuidToBuffer userB)
        (uuidToBuffer post_id) tB tB none] := by
    rw [hdbB]
    rfl
  have huB : (createComment (createComment db contentA userA post_id idA tA).1
      contentB userB post_id idB tB).1.users =
      (createComment db contentA userA post_id idA tA).1.users := by
    rw [hdbB]
    rfl
  clear hdbA hdbB
  generalize (createComment db contentA userA post_id idA tA).1 = dbA at *
  generalize (createComment dbA contentB userB post_id idB tB).1 = dbB at *
  rw [huA] at huB huB1
  have hAmem : CommentRow.mk (uuidToBuffer idA) contentA (uuidToBuffer userA)
      (uuidToBuffer post_id) tA tA none ∈ dbB.comments := by
    rw [hcB, hcA]
    simp
  have hBmem : CommentRow.mk (uuidToBuffer idB) contentB (uuidToBuffer userB)
      (uuidToBuffer post_id) tB tB none ∈ dbB.comments := by
    rw [hcB]
    simp
  refine ⟨?_, getCommentsByPostId_updateComment_ids dbB idA newContent post_id, ?_⟩
  · obtain ⟨hfail, honly, hok⟩ := updateComment_cases dbB idA newContent
    cases hres : (updateComment dbB idA newContent).2 with
    | error e =>
      have he := honly e hres
      subst he
      exact absurd ⟨_, hAmem, rfl, rfl, uA, by rw [huB]; exact huA1, huA2⟩ (hfail.mp hres)
    | ok rE =>
      obtain ⟨c, _, hid, _, u, _, _, hrE⟩ := hok rE hres
      refine ⟨rE, rfl, ?_, by rw [hrE]; rfl⟩
      rw [hrE, hrA]
      show bufferToUuid c.id = _
      rw [hid]
  · rw [getCommentsByPostId_updateComment_ids]
    unfold getCommentsByPostId
    simp only [List.map_map]
    have hjA : JoinedRow.mk (CommentRow.mk (uuidToBuffer idA) contentA (uuidToBuffer userA)
        (uuidToBuffer post_id) tA tA none) uA.nickname ∈
        selectByPostId dbB (uuidToBuffer post_id) :=
      (mem_selectByPostId dbB _ _).mpr
        ⟨hAmem, rfl, rfl, uA, by rw [huB]; exact huA1, huA2, rfl⟩
    have hjB : JoinedRow.mk (CommentRow.mk (uuidToBuffer idB) contentB (uuidToBuffer userB)
        (uuidToBuffer post_id) tB tB none) uB.nickname ∈
        selectByPostId dbB (uuidToBuffer post_id) :=
      (mem_selectByPostId dbB _ _).mpr
        ⟨hBmem, rfl, rfl, uB, by rw [huB]; exact huB1, huB2, rfl⟩
    have hsub := sorted_pair_sublist _ _ hlt (selectByPostId dbB (uuidToBuffer post_id))
      (by unfold selectByPostId; exact orderByUpdatedAt_sorted _) hjA hjB
    have := hsub.map ((fun r : Comment => r.id) ∘ toComment)
    rw [hrA, hrB]
    exact this

/-- The ordering theorem on the example run: C1 at time 1, C2 at time 2, then
C1 edited. -/
theorem edit_keeps_list_order_witness :
    (createComment store0 "first" userU postP idC1 1).2 =
      .ok { id := idC1, content := "first", user_id := userU, post_id := postP,
            created_at := 1, updated_at := 1, deleted_at := none, author := "leo" } ∧
    (createComment (createComment store0 "first" userU postP idC1 1).1
      "second" userU postP idC2 2).2 =
      .ok { id := idC2, content := "second", user_id := userU, post_id := postP,
            created_at := 2, updated_at := 2, deleted_at := none, author := "leo" } ∧
    [idC1, idC2].Sublist
      ((getCommentsByPostId (updateComment (createComment
        (createComment store0 "first" userU postP idC1 1).1
        "second" userU postP idC2 2).1 idC1 "edited").1 postP).map (fun r => r.id)) :=
  ⟨by decide, by decide,
    (edit_keeps_list_order store0 "first" userU "second" userU postP idC1 idC2 "edited" 1 2
      { id := idC1, content := "first", user_id := userU, post_id := postP,
        created_at := 1, updated_at := 1, deleted_at := none, author := "leo" }
      { id := idC2, content := "second", user_id := userU, post_id := postP,
        created_at := 2, updated_at := 2, deleted_at := none, author := "leo" }
      (by decide) (by decide) (by decide)).2.2⟩

/-- C7 as stated fails. In the example run A is C1 (created at time 1) and B
is C2 (created at time 2); A is then edited, the edit succeeds, and
`getCommentsByPostId` lists A first and B second, A with the new content and
its `updated_at` still 1. -/
theorem edited_comment_is_not_moved :
    (updateComment store2 idC1 "edited").2 =
      .ok { id := idC1, content := "edited", user_id := userU, post_id := postP,
            created_at := 1, updated_at := 1, deleted_at := none, author := "leo" } ∧
    getCommentsByPostId (updateComment store2 idC1 "edited").1 postP =
      [{ id := idC1, content := "edited", user_id := userU, post_id := postP,
         created_at := 1, updated_at := 1, deleted_at := none, author := "leo" },
       { id := idC2, content := "second", user_id := userU, post_id := postP,
         created_at := 2, updated_at := 2, deleted_at := none, author := "leo" }] := by
  decide

end CommentStore
